import Mathlib

/-!
Verification of the adaptive segmentation and transcription aggregation
pipeline of the GiJiRoKu_MP4 repository.  Python strings are embedded as
`List Char`; the external transcription / text-generation capabilities and
the audio-analysis library calls are modelled as explicit parameters
(oracles), everything else is translated directly from the source.
-/

set_option maxRecDepth 20000

namespace Giji

/-! ## Basic string utilities (Python `str` operations on `List Char`) -/

/-- ASCII part of Python's regex class `\s` (space, tab, newline, carriage
return, vertical tab, form feed).  The texts handled by the claims contain
no non-ASCII whitespace, so this is faithful for them. -/
def isPySpace (c : Char) : Bool :=
  c = ' ' || c = '\t' || c = '\n' || c = '\r' || c = '\x0b' || c = '\x0c'

/-- If `l` is a literal prefix of `cs`, return the remainder. -/
def dropLit : List Char → List Char → Option (List Char)
  | [], cs => some cs
  | _ :: _, [] => none
  | a :: l, c :: cs => if a = c then dropLit l cs else none

/-- `startsWith pat s` is true iff `pat` is a prefix of `s`. -/
def startsWith : List Char → List Char → Bool
  | [], _ => true
  | _ :: _, [] => false
  | p :: ps, c :: cs => p = c && startsWith ps cs

/-- Python `pat in s` (substring test) for nonempty and empty patterns. -/
def containsSub : List Char → List Char → Bool
  | [], pat => startsWith pat []
  | c :: r, pat => startsWith pat (c :: r) || containsSub r pat

/-- Auxiliary scanner for `countSub`; the fuel argument only guarantees
termination, `fuel = s.length` always suffices because each step consumes
at least one character of the text (patterns are nonempty in all uses). -/
def countSubAux (pat : List Char) : Nat → List Char → Nat
  | 0, _ => 0
  | _ + 1, [] => 0
  | fuel + 1, c :: rest =>
    if startsWith pat (c :: rest) then
      1 + countSubAux pat fuel (List.drop (pat.length - 1) rest)
    else
      countSubAux pat fuel rest

/-- Python `s.count(pat)`: number of non-overlapping occurrences, scanning
from the left. -/
def countSub (s pat : List Char) : Nat :=
  countSubAux pat s.length s

/-- Drop leading Python whitespace. -/
def dropWs : List Char → List Char
  | [] => []
  | c :: r => if isPySpace c then dropWs r else c :: r

/-- Python `s.split()` accumulator: splits on runs of whitespace and drops
empty pieces. -/
def splitAux : List Char → List Char → List (List Char)
  | [], acc => if acc = [] then [] else [acc.reverse]
  | c :: rest, acc =>
    if isPySpace c then
      if acc = [] then splitAux rest []
      else acc.reverse :: splitAux rest []
    else splitAux rest (c :: acc)

/-- Python `s.split()` (no separator argument). -/
def pySplit (s : List Char) : List (List Char) :=
  splitAux s []

/-- Python `list.count(x)`: number of elements equal to `x`. -/
def listCount : List (List Char) → List Char → Nat
  | [], _ => 0
  | x :: xs, w => (if x = w then 1 else 0) + listCount xs w

/-- `pat` concatenated with itself `n` times (Python `pat * n`). -/
def repConcat : Nat → List Char → List Char
  | 0, _ => []
  | n + 1, s => s ++ repConcat n s

/-- Python `range(0, stop, step)` for `step > 0` (empty for `stop = 0`). -/
def pyRange (stop step : Nat) : List Nat :=
  (List.range ((stop + step - 1) / step)).map (· * step)

/-! ## Defect detector (`src/services/transcription.py`)

`TranscriptionService.is_problematic_transcription` and its two helpers
`_check_single_utterance_repetition` / `_check_whole_text_repetition`.
The `"utterance"` extraction regex
`"utterance"\s*:\s*"((?:[^"\\]|\\.)*)(?:"|$)` from `re.findall` is
embedded exactly (greedy capture run; after the run the regex needs a
closing quote or end of input, and backtracking inside the run can never
succeed because every given-back unit starts with a non-quote character). -/

def litUtteranceKey : List Char := "\"utterance\"".toList

/-- Greedy match of `(?:[^"\\]|\\.)*` (Python `.` does not match a
newline): returns the captured run and the remaining input. -/
def greedyRun : List Char → List Char × List Char
  | [] => ([], [])
  | c :: rest =>
    if c = '"' then ([], c :: rest)
    else if c = '\\' then
      match rest with
      | [] => ([], [c])
      | c2 :: rest2 =>
        if c2 = '\n' then ([], c :: c2 :: rest2)
        else
          let p := greedyRun rest2
          (c :: c2 :: p.1, p.2)
    else
      let p := greedyRun rest
      (c :: p.1, p.2)

/-- Try to match the utterance regex at the start of `cs`; on success
return the captured utterance and the input remaining after the match. -/
def tryMatch (cs : List Char) : Option (List Char × List Char) :=
  match dropLit litUtteranceKey cs with
  | none => none
  | some cs1 =>
    match dropWs cs1 with
    | ':' :: cs3 =>
      match dropWs cs3 with
      | '"' :: cs5 =>
        let p := greedyRun cs5
        match p.2 with
        | [] => some (p.1, [])
        | '"' :: rest => some (p.1, rest)
        | _ => none
      | _ => none
    | _ => none

/-- `re.findall` scan: try to match at each position, left to right,
non-overlapping.  Fuel `= cs.length` suffices since a successful match
consumes at least the literal `"utterance"` and a failure advances one
character. -/
def findAllAux : Nat → List Char → List (List Char)
  | 0, _ => []
  | fuel + 1, cs =>
    match tryMatch cs with
    | some capRest => capRest.1 :: findAllAux fuel capRest.2
    | none =>
      match cs with
      | [] => []
      | _ :: rest => findAllAux fuel rest

/-- All `"utterance"` field values found in the text (the Python
`utterance_patterns`). -/
def extractUtterances (cs : List Char) : List (List Char) :=
  findAllAux cs.length cs

/-- The fixed filler phrases checked by the detector. -/
def problemPhrases : List (List Char) :=
  ["うん。".toList, "はい。".toList, "ええ。".toList, "あの。".toList, "えー。".toList]

/-- The literal known-failure marker. -/
def takeMinutesMarker : List Char := "Take minutes of the meeting".toList

/-- `_check_single_utterance_repetition`: a token of length > 1 repeated at
least 80 times inside the utterance, or a filler phrase occurring at least
70 times inside it. -/
def checkSingleUtteranceRepetition (u : List Char) : Bool :=
  let words := pySplit u
  (words.any fun w => decide (1 < w.length) && decide (80 ≤ listCount words w))
    || (problemPhrases.any fun ph => decide (70 ≤ countSub u ph))

/-- `_check_whole_text_repetition`: 70 consecutive repetitions of a filler
phrase, or at least 200 occurrences anywhere (the `len(phrase) >= 2` guard
is kept although it always holds for the fixed phrases). -/
def checkWholeTextRepetition (t : List Char) : Bool :=
  problemPhrases.any fun ph =>
    decide (2 ≤ ph.length)
      && (containsSub t (repConcat 70 ph) || decide (200 ≤ countSub t ph))

/-- `is_problematic_transcription`: marker check, then per-utterance
checks, then the whole-text fallback. -/
def isProblematicTranscription (t : List Char) : Bool :=
  if containsSub t takeMinutesMarker then true
  else if (extractUtterances t).any checkSingleUtteranceRepetition then true
  else checkWholeTextRepetition t

/-- `"tok tok ... tok"`: `n` copies of `tok` separated by single spaces. -/
def repJoin : Nat → List Char → List Char
  | 0, _ => []
  | 1, tok => tok
  | n + 2, tok => tok ++ ' ' :: repJoin (n + 1) tok

/-- A text consisting of exactly one utterance whose value is `body`. -/
def uttText (body : List Char) : List Char :=
  litUtteranceKey ++ (':' :: ' ' :: '"' :: (body ++ ['"']))

/-! ## Per-segment retry loop (`TranscriptionService._process_with_gemini`)

The external call `self.gemini_api.transcribe_audio` is modelled as an
oracle mapping the attempt number to its outcome: a returned string or a
raised exception. -/

/-- Outcome of one external transcription attempt. -/
inductive AttemptResult where
  | ok (raw : List Char)
  | err
deriving DecidableEq

/-- Collapse every whitespace run to one space
(`re.sub(r'\s+', ' ', s)`); the Bool records whether the previous
character was part of a run already replaced. -/
def collapseWsAux : Bool → List Char → List Char
  | _, [] => []
  | inRun, c :: r =>
    if isPySpace c then
      if inRun then collapseWsAux true r else ' ' :: collapseWsAux true r
    else c :: collapseWsAux false r

/-- Python `s.strip()` for a string whose only whitespace is `' '`
(always the case after the collapse). -/
def stripSpaces (s : List Char) : List Char :=
  (dropWs (dropWs s).reverse).reverse

/-- `re.sub(r'\s+', ' ', raw).strip()`; for a falsy `raw` the source uses
`""`, which coincides with the normalisation of the empty list. -/
def normalizeWs (s : List Char) : List Char :=
  stripSpaces (collapseWsAux false s)

/-- `max_retries = 2` in `_process_with_gemini`. -/
def maxRetries : Nat := 2

/-- Final state of one segment's retry loop: the last assigned
`segment_text` (`none` = Python `None`), the per-run
`has_reached_max_retries` contribution, and the number of attempts made. -/
structure SegOutcome where
  text : Option (List Char)
  warned : Bool
  attempts : Nat
deriving DecidableEq

/-- The retry loop `for attempt in range(max_retries + 1)` over the listed
attempt indices.  `rest = []` corresponds to `attempt == max_retries`.
On a defective result with attempts remaining the loop continues keeping
the defective text; on a final defective result it keeps the text and sets
the warning; on an exception it retries, or on the final attempt sets the
warning and an empty text. -/
def segLoop (o : Nat → AttemptResult) (p : List Char → Bool) :
    List Nat → Option (List Char) → Bool → Nat → SegOutcome
  | [], txt, w, n => ⟨txt, w, n⟩
  | a :: rest, txt, w, n =>
    match o a with
    | .ok raw =>
      let t := normalizeWs raw
      if t ≠ [] ∧ p t = true then
        if rest.isEmpty then ⟨some t, true, n + 1⟩
        else segLoop o p rest (some t) w (n + 1)
      else ⟨some t, w, n + 1⟩
    | .err =>
      if rest.isEmpty then ⟨some [], true, n + 1⟩
      else segLoop o p rest txt w (n + 1)

/-- One segment's transcription with the full retry budget. -/
def runSegment (o : Nat → AttemptResult) (p : List Char → Bool) : SegOutcome :=
  segLoop o p (List.range (maxRetries + 1)) none false 0

/-- One entry of `all_transcriptions` (the `segment_file` field is omitted:
it plays no role in any claim). -/
structure SegmentEntry where
  segment : Nat
  text : List Char
deriving DecidableEq

/-- The outer loop `for i, segment_file in enumerate(split_files, 1)` over
`n` segment files: a segment whose final text is `None` or empty is
skipped (`if not segment_text: continue`); otherwise the speaker labels
are tagged (`add_speaker_identifier`, abstracted as `tag`) and the entry
is appended. -/
def processAllSegments (o : Nat → Nat → AttemptResult) (p : List Char → Bool)
    (tag : Nat → List Char → List Char) (n : Nat) : List SegmentEntry :=
  (List.range' 1 n).foldl
    (fun acc i =>
      match (runSegment (o i) p).text with
      | none => acc
      | some t => if t = [] then acc else acc ++ [⟨i, tag i t⟩])
    []

/-- The text a segment contributes, `none` if it is skipped. -/
def segKeptText (o : Nat → Nat → AttemptResult) (p : List Char → Bool) (i : Nat) :
    Option (List Char) :=
  match (runSegment (o i) p).text with
  | none => none
  | some t => if t = [] then none else some t

/-! ## Silence-aware splitter (`src/modules/audio_splitter.py`)

The decoded audio is modelled by its length plus two oracles embedding the
pydub library calls: `detectSilence s e th` is
`detect_silence(audio[s:e], min_silence_len=500, silence_thresh=th)`
(ranges relative to the slice) and `rms p` is the RMS volume of the window
`audio[p : p + 100]`. -/

structure AudioModel where
  lengthMs : Nat
  detectSilence : Nat → Nat → Int → List (Nat × Nat)
  rms : Nat → Nat

def minSilenceLen : Nat := 500

def marginMs : Nat := 10000

/-- `_find_min_volume_position`: scan 100 ms windows, keep the first
strict minimum; `window_size // 2 = 50`. -/
def findMinVolumePosition (am : AudioModel) (segStart segLen : Nat) : Nat :=
  let idxs := pyRange (segLen - 100) 100
  (idxs.foldl
    (fun st i =>
      let v := am.rms (segStart + i)
      match st.1 with
      | none => (some v, i + 50)
      | some mv => if v < mv then (some v, i + 50) else st)
    ((none : Option Nat), 0)).2

/-- `_select_best_silence`: midpoint of the silence range closest to the
target position (first minimum kept; initial best position is the target
itself). -/
def selectBestSilence (ranges : List (Nat × Nat)) (targetPos : Nat) : Nat :=
  (ranges.foldl
    (fun st r =>
      let mid := (r.1 + r.2) / 2
      let d := Nat.dist mid targetPos
      match st.1 with
      | none => (some d, mid)
      | some bd => if d < bd then (some d, mid) else st)
    ((none : Option Nat), targetPos)).2

/-- `thresholds = [-40, -35, -30, -25]`. -/
def silenceThresholds : List Int := [-40, -35, -30, -25]

/-- The threshold loop body: `if silence_ranges: break` keeps the first
non-empty detection result; if all are empty the final (empty) result
stands, which coincides with returning `[]`. -/
def detectFirst (am : AudioModel) (s e : Nat) : List Int → List (Nat × Nat)
  | [] => []
  | th :: rest =>
    if am.detectSilence s e th = [] then detectFirst am s e rest
    else am.detectSilence s e th

def detectWithThresholds (am : AudioModel) (s e : Nat) : List (Nat × Nat) :=
  detectFirst am s e silenceThresholds

/-- `_find_optimal_split_point`.  `max(0, target - margin)` is the
truncated subtraction on `Nat`. -/
def findOptimalSplitPoint (am : AudioModel) (targetIn : Nat) : Nat :=
  let target := min targetIn am.lengthMs
  let searchStart := target - marginMs
  let searchEnd := min am.lengthMs (target + marginMs)
  if searchEnd - searchStart < minSilenceLen * 2 then target
  else
    match detectWithThresholds am searchStart searchEnd with
    | [] => searchStart + findMinVolumePosition am searchStart (searchEnd - searchStart)
    | rs => searchStart + selectBestSilence rs (target - searchStart)

/-- `list(range(0, audio_length_ms, segment_length_ms))` plus the final
duration if missing.  (For `lengthMs = 0` the source would raise an
IndexError; claims only concern positive durations.) -/
def theoreticalSplitPoints (lengthMs segMs : Nat) : List Nat :=
  let pts := pyRange lengthMs segMs
  if pts.getLast? = some lengthMs then pts else pts ++ [lengthMs]

/-- `_determine_all_split_points`: first point fixed, interior points
adjusted, last point fixed. -/
def determineAllSplitPoints (am : AudioModel) (tps : List Nat) : List Nat :=
  match tps with
  | [] => []
  | t0 :: rest =>
    match rest.getLast? with
    | none => [t0]
    | some last => t0 :: (rest.dropLast.map (findOptimalSplitPoint am)) ++ [last]

/-- The boundary list produced by `split_audio` for a given audio and
segment length in milliseconds. -/
def splitPlan (am : AudioModel) (segMs : Nat) : List Nat :=
  determineAllSplitPoints am (theoreticalSplitPoints am.lengthMs segMs)

/-- Contract satisfied by every real `pydub.silence.detect_silence` result
on a slice of length `e - s`: ranges are nonempty and lie inside the
slice. -/
def SilenceContract (am : AudioModel) : Prop :=
  ∀ s e th p, p ∈ am.detectSilence s e th → p.1 < p.2 ∧ p.2 ≤ e - s

/-! ## Title-prompt truncation
(`MeetingTitleService.process_transcript_and_generate_title`) -/

def speakerMarker : List Char := "\"speaker\":".toList

/-- Positions (0-based) at which `pat` occurs in the text, ascending,
including overlapping occurrences — accumulator form. -/
def occListAux (pat : List Char) : List Char → Nat → List Nat
  | [], _ => []
  | c :: r, p =>
    (if startsWith pat (c :: r) then [p] else []) ++ occListAux pat r (p + 1)

/-- All occurrence positions of `pat` in `t`. -/
def occList (t pat : List Char) : List Nat :=
  occListAux pat t 0

/-- Python `t.find(pat, start)`: first occurrence position `≥ start`
(`none` for `-1`). -/
def findFrom (t pat : List Char) (start : Nat) : Option Nat :=
  ((occList t pat).filter (fun i => decide (start ≤ i))).head?

/-- The source's cut loop: `n` successive `find` calls, each starting one
past the previous hit; `none` once any call fails. -/
def findNthFrom (t pat : List Char) : Nat → Nat → Option Nat
  | 0, _ => none
  | 1, start => findFrom t pat start
  | n + 2, start =>
    match findFrom t pat start with
    | none => none
    | some i => findNthFrom t pat (n + 1) (i + 1)

/-- The transcript text handed to the title generator: full text for 0 or
up to 60 markers; for more than 60 markers the prefix up to the position
found by 60 successive `find` calls (full text if that loop fails). -/
def textForTitle (t : List Char) : List Char :=
  let markerCount := countSub t speakerMarker
  if markerCount = 0 then t
  else if 60 < markerCount then
    match findNthFrom t speakerMarker 60 0 with
    | some i => t.take i
    | none => t
  else t

/-- Modelled from the spec (claim C5's words): with more than 60 markers,
exactly the prefix up to but not including the 61st marker occurrence is
sent; otherwise the full text. -/
def specClaimedTitleText (t : List Char) : List Char :=
  if 60 < countSub t speakerMarker then
    match (occList t speakerMarker).get? 60 with
    | some i => t.take i
    | none => t
  else t

/-! ## Speaker remapper (`src/services/speaker_remapper.py`)

The external text-generation call and the `json.loads`-based parsing of
its response are modelled as parameters; `_replace_speakers` and the
skip-pattern filter are embedded directly.  The regex
`"speaker"\s*:\s*"<escaped old name>"` is matched literally
(`re.escape` makes the old name literal). -/

def litSpeakerKey : List Char := "\"speaker\"".toList

/-- Match `"speaker"\s*:\s*"k"` at the start of `cs`; return the remaining
input after the match. -/
def matchSpeakerPat (k : List Char) (cs : List Char) : Option (List Char) :=
  match dropLit litSpeakerKey cs with
  | none => none
  | some cs1 =>
    match dropWs cs1 with
    | ':' :: cs3 =>
      match dropWs cs3 with
      | '"' :: cs5 =>
        match dropLit k cs5 with
        | some ('"' :: rest) => some rest
        | _ => none
      | _ => none
    | _ => none

/-- The replacement text `f'"speaker": "{new_name}"'`. -/
def speakerRepl (v : List Char) : List Char :=
  "\"speaker\": \"".toList ++ v ++ ['"']

/-- `re.sub` for the speaker pattern: leftmost, non-overlapping, global;
the replacement is emitted and scanning resumes after the match.  Fuel
`= cs.length` suffices: every step consumes at least one character. -/
def subSpeakerAux (k v : List Char) : Nat → List Char → List Char
  | 0, cs => cs
  | fuel + 1, cs =>
    match matchSpeakerPat k cs with
    | some rest => speakerRepl v ++ subSpeakerAux k v fuel rest
    | none =>
      match cs with
      | [] => []
      | c :: r => c :: subSpeakerAux k v fuel r

/-- One `re.sub(pattern_for_k, replacement_for_v, text)` call. -/
def subSpeaker (k v t : List Char) : List Char :=
  subSpeakerAux k v t.length t

/-- Does the serialized pattern for `k` occur anywhere in `t`? -/
def hasPat (k : List Char) : List Char → Bool
  | [] => (matchSpeakerPat k []).isSome
  | c :: r => (matchSpeakerPat k (c :: r)).isSome || hasPat k r

/-- The `skip_patterns` list. -/
def skipPatterns : List (List Char) :=
  ["[不明]".toList, "[".toList, "unknown".toList, "Unknown".toList, "不明".toList]

/-- Keep only the mapping entries whose new name contains no skip pattern
(insertion order preserved, as for a Python dict). -/
def filterMapping (m : List (List Char × List Char)) : List (List Char × List Char) :=
  m.filter (fun kv => !(skipPatterns.any fun p => containsSub kv.2 p))

/-- `_replace_speakers`: apply the filtered mapping entries in order. -/
def replaceSpeakers (t : List Char) (m : List (List Char × List Char)) : List Char :=
  (filterMapping m).foldl (fun acc kv => subSpeaker kv.1 kv.2 acc) t

/-- Outcome of the external text-generation call inside
`GeminiSpeakerRemapper._get_speaker_mapping`. -/
inductive ApiOutcome where
  | failure
  | success (resp : List Char)

/-- `_get_speaker_mapping`: a raised `GeminiAPIError` or any other
exception yields `{}`; otherwise the response is parsed.  `parse` stands
for `_parse_mapping_response`'s extraction plus `json.loads` restricted to
a string-to-string object; `none` covers a `JSONDecodeError` (caught
locally, returning `{}`) as well as a non-dict result (whose `.items()`
raises and is caught by the outer generic handler, also yielding `{}`). -/
def getSpeakerMapping
    (parse : List Char → Option (List (List Char × List Char)))
    (call : ApiOutcome) : List (List Char × List Char) :=
  match call with
  | .failure => []
  | .success resp =>
    match parse resp with
    | none => []
    | some m => m

/-! ## Aggregation cleanup (`ResultIntegrator.cleanup_temp_files`,
`AudioProcessor.process_audio_file`, and the cleanup step inside
`TranscriptionService._process_with_gemini`) -/

structure TempFile where
  name : List Char
  suffix : List Char
  unlinkFails : Bool

/-- Is the file one of the segment artifacts the cleanup deletes? -/
def isSegArtifact (f : TempFile) : Bool :=
  f.suffix = ".mp3".toList || f.suffix = ".json".toList

/-- The deletion loop: unlink every `.mp3`/`.json` file, counting
deletions; a failing unlink raises. -/
def deleteSegmentFiles : List TempFile → Nat → Except Unit Nat
  | [], n => .ok n
  | f :: fs, n =>
    if isSegArtifact f then
      if f.unlinkFails then .error () else deleteSegmentFiles fs (n + 1)
    else deleteSegmentFiles fs n

/-- `cleanup_temp_files`: the `except` block logs and then re-raises, so
any failure propagates to the caller as an error. -/
def cleanupTempFiles (dirExists : Bool) (files : List TempFile)
    (rmdirFails : Bool) : Except Unit Nat :=
  if dirExists then
    match deleteSegmentFiles files 0 with
    | .error e => .error e
    | .ok n =>
      let remaining := files.filter (fun f => !isSegArtifact f)
      if remaining.isEmpty then
        if rmdirFails then .error () else .ok n
      else .ok n
  else .ok 0

/-- Tail of `AudioProcessor.process_audio_file`: the cleanup call is made
after the final output exists; an exception raised by it propagates out of
the method, so the already-produced output is not returned. -/
def processAudioFileResult (finalOutput : List Char)
    (cleanup : Except Unit Nat) : Except Unit (List Char) :=
  match cleanup with
  | .error e => .error e
  | .ok _ => .ok finalOutput

/-- The `shutil.rmtree` attempt in `_process_with_gemini`, wrapped in its
own try block. -/
def rmtreeGuarded (rmtreeFails : Bool) : Except Unit Unit :=
  if rmtreeFails then .error () else .ok ()

/-- Tail of `TranscriptionService._process_with_gemini`: a cleanup failure
is caught and logged, and the result is returned regardless. -/
def geminiCleanupStep (result : List Char) (rmtreeFails : Bool) : List Char :=
  match rmtreeGuarded rmtreeFails with
  | .error _ => result
  | .ok _ => result

/-! ## Segment transcriber wrapper (`GeminiTranscriber.transcribe_audio`
and `GeminiTranscriptionService.process_media`) -/

structure Conversation where
  speaker : List Char
  utterance : List Char
deriving DecidableEq

/-- Success path of `process_media`: existence and extension checks, then
the external call; an empty result raises; otherwise `formatted_text` is
the API result verbatim. -/
def processMedia (fileExistsOk extOk : Bool) (apiResult : List Char) :
    Except Unit (List Char) :=
  if !fileExistsOk then .error ()
  else if !extOk then .error ()
  else if apiResult = [] then .error ()
  else .ok apiResult

/-- `GeminiTranscriber.transcribe_audio`: wraps the formatted text into a
single-conversation dictionary with the constant speaker `話者`. -/
def transcribeAudioGT (fileExistsOk extOk : Bool) (apiResult : List Char) :
    Except Unit (List Conversation) :=
  match processMedia fileExistsOk extOk apiResult with
  | .error e => .error e
  | .ok formatted => .ok [⟨"話者".toList, formatted⟩]

/-! ## Concrete instances used in counterexamples and witnesses -/

/-- C3 counterexample oracle: defective first attempt, clean second. -/
def c3Oracle : Nat → AttemptResult :=
  fun a => if a = 0 then .ok "bad".toList else .ok "good".toList

/-- Detector marking exactly the text `bad` defective. -/
def c3Detect : List Char → Bool :=
  fun t => t = "bad".toList

/-- C3 witness oracle: every attempt defective. -/
def c3wOracle : Nat → AttemptResult := fun _ => .ok "bad".toList

/-- C4 counterexample token: a filler phrase used as the repeated token. -/
def c4BadTok : List Char := "うん。".toList

/-- C4 witness token. -/
def c4wTok : List Char := "ab".toList

/-- C2 counterexample: audio of 30 s that is silent exactly on
`[18000, 20000]` ms; `detectSilence` returns the silent part of the
requested slice whenever it is at least `minSilenceLen` long, and the RMS
oracle is irrelevant. -/
def c2Silence (s e : Nat) (_ : Int) : List (Nat × Nat) :=
  let lo := max s 18000
  let hi := min e 20000
  if lo + minSilenceLen ≤ hi then [(lo - s, hi - s)] else []

def c2Audio : AudioModel := ⟨30000, c2Silence, fun _ => 100⟩

/-- Witness audio: no silence anywhere, constant volume. -/
def c2wAudio : AudioModel := ⟨50000, fun _ _ _ => [], fun _ => 0⟩

/-- C5 texts. -/
def c5BigText : List Char := repConcat 61 speakerMarker

def c5SmallText : List Char := repConcat 3 speakerMarker

/-- C7 mapping `A → B` and the adversarial transcript with two
overlapping serialized occurrences of `A`. -/
def c7Map : List (List Char × List Char) := [("A".toList, "B".toList)]

def c7Text : List Char := "\"speaker\": \"A\"speaker\": \"A\"".toList

def c7wText : List Char := "\"speaker\": \"A\" hello \"speaker\": \"C\"".toList

/-- C9: a segment file whose deletion fails. -/
def c9BadFile : TempFile := ⟨"segment_1.mp3".toList, ".mp3".toList, true⟩

/-- C10: an API response that distinguishes two speakers. -/
def c10Resp : List Char := "\"speaker\": \"A\" \"speaker\": \"B\" hello".toList

/-! ## Helper lemmas -/

lemma replaceSpeakers_nil (t : List Char) : replaceSpeakers t [] = t := rfl

lemma matchSpeakerPat_nil (k : List Char) : matchSpeakerPat k [] = none := rfl

lemma subSpeakerAux_id (k v : List Char) :
    ∀ (f : Nat) (t : List Char), hasPat k t = false → subSpeakerAux k v f t = t := by
  intro f
  induction f with
  | zero => intro t _; rfl
  | succ f ih =>
    intro t h
    cases t with
    | nil => simp [subSpeakerAux, matchSpeakerPat_nil]
    | cons c r =>
      have h2 : (matchSpeakerPat k (c :: r)).isSome = false ∧ hasPat k r = false := by
        simpa [hasPat, Bool.or_eq_false_iff] using h
      cases hm : matchSpeakerPat k (c :: r) with
      | some rest => rw [hm] at h2; simp at h2
      | none => simp [subSpeakerAux, hm, ih r h2.2]

lemma subSpeaker_id (k v t : List Char) (h : hasPat k t = false) :
    subSpeaker k v t = t :=
  subSpeakerAux_id k v t.length t h

lemma foldl_subSpeaker_id :
    ∀ (l : List (List Char × List Char)) (t : List Char),
      (∀ kv ∈ l, hasPat kv.1 t = false) →
      l.foldl (fun acc kv => subSpeaker kv.1 kv.2 acc) t = t := by
  intro l
  induction l with
  | nil => intro t _; rfl
  | cons kv l ih =>
    intro t h
    have h1 : subSpeaker kv.1 kv.2 t = t := subSpeaker_id _ _ _ (h kv (by simp))
    simp only [List.foldl_cons, h1]
    exact ih t fun kv2 hm => h kv2 (by simp [hm])

lemma deleteSegmentFiles_error_iff :
    ∀ (files : List TempFile) (n : Nat),
      deleteSegmentFiles files n = .error () ↔
        ∃ f ∈ files, isSegArtifact f = true ∧ f.unlinkFails = true := by
  intro files
  induction files with
  | nil => intro n; simp [deleteSegmentFiles]
  | cons f fs ih =>
    intro n
    by_cases ha : isSegArtifact f
    · by_cases hu : f.unlinkFails
      · simp [deleteSegmentFiles, ha, hu]
      · simp [deleteSegmentFiles, ha, hu, ih (n + 1)]
    · simp [deleteSegmentFiles, ha, ih n]

lemma segLoop_attempts_le (o : Nat → AttemptResult) (p : List Char → Bool) :
    ∀ (l : List Nat) (txt : Option (List Char)) (w : Bool) (n : Nat),
      (segLoop o p l txt w n).attempts ≤ n + l.length := by
  intro l
  induction l with
  | nil => intro txt w n; simp [segLoop]
  | cons a rest ih =>
    intro txt w n
    cases ho : o a with
    | ok raw =>
      simp only [segLoop, ho]
      by_cases hc : normalizeWs raw ≠ [] ∧ p (normalizeWs raw) = true
      · rw [if_pos hc]
        by_cases hr : rest.isEmpty
        · rw [if_pos hr]; simp
        · rw [if_neg hr]
          have := ih (some (normalizeWs raw)) w (n + 1)
          simp only [List.length_cons]; omega
      · rw [if_neg hc]; simp
    | err =>
      simp only [segLoop, ho]
      by_cases hr : rest.isEmpty
      · rw [if_pos hr]; simp
      · rw [if_neg hr]
        have := ih txt w (n + 1)
        simp only [List.length_cons]; omega

lemma processAllSegments_eq (o : Nat → Nat → AttemptResult) (p : List Char → Bool)
    (tag : Nat → List Char → List Char) (n : Nat) :
    processAllSegments o p tag n =
      (List.range' 1 n).filterMap
        (fun i => (segKeptText o p i).map fun t => (⟨i, tag i t⟩ : SegmentEntry)) := by
  have step : ∀ (l : List Nat) (acc : List SegmentEntry),
      l.foldl
        (fun acc i =>
          match (runSegment (o i) p).text with
          | none => acc
          | some t => if t = [] then acc else acc ++ [⟨i, tag i t⟩])
        acc =
      acc ++ l.filterMap
        (fun i => (segKeptText o p i).map fun t => (⟨i, tag i t⟩ : SegmentEntry)) := by
    intro l
    induction l with
    | nil => intro acc; simp
    | cons i l ih =>
      intro acc
      simp only [List.foldl_cons, List.filterMap_cons]
      cases ht : (runSegment (o i) p).text with
      | none => simp [segKeptText, ht, ih]
      | some t =>
        by_cases he : t = []
        · simp [segKeptText, ht, he, ih]
        · simp [segKeptText, ht, he, ih]
  simpa [processAllSegments] using step (List.range' 1 n) []

lemma filterMap_kept_map_segment (o : Nat → Nat → AttemptResult) (p : List Char → Bool)
    (tag : Nat → List Char → List Char) :
    ∀ l : List Nat,
      ((l.filterMap
          (fun i => (segKeptText o p i).map fun t => (⟨i, tag i t⟩ : SegmentEntry))).map
        (fun e => e.segment)) =
        l.filter (fun i => (segKeptText o p i).isSome) := by
  intro l
  induction l with
  | nil => rfl
  | cons i l ih =>
    cases hk : segKeptText o p i with
    | none => simp [List.filterMap_cons, hk, ih]
    | some t => simp [List.filterMap_cons, hk, ih]

/-! ## Claim C1 -/

/-- C1 counterexample: with one segment whose every transcription attempt
returns an empty string, the result list is empty rather than containing
one (empty-text) entry per segment — the claimed "exactly one
SegmentTranscript entry per input segment (possibly with empty text)" is
false. -/
theorem c1_counterexample :
    ¬ (processAllSegments (fun _ _ => AttemptResult.ok []) (fun _ => false)
        (fun _ t => t) 1).length = 1 := by
  decide

/-- C1 amended: the per-segment loop produces at most one entry per
segment, in strictly increasing segment-index order; segment `i` of
`1..n` contributes an entry exactly when its final text is non-empty
(empty-text segments are skipped, not included). -/
theorem c1_segment_results_order (o : Nat → Nat → AttemptResult)
    (p : List Char → Bool) (tag : Nat → List Char → List Char) (n : Nat) :
    ((processAllSegments o p tag n).map (fun e => e.segment) =
      (List.range' 1 n).filter (fun i => (segKeptText o p i).isSome)) ∧
    List.Chain' (· < ·) ((processAllSegments o p tag n).map (fun e => e.segment)) := by
  have h1 : (processAllSegments o p tag n).map (fun e => e.segment) =
      (List.range' 1 n).filter (fun i => (segKeptText o p i).isSome) := by
    rw [processAllSegments_eq]
    exact filterMap_kept_map_segment o p tag _
  refine ⟨h1, ?_⟩
  rw [h1]
  exact ((List.pairwise_lt_range' 1 n).filter _).chain'

/-! ## Claim C3 -/

/-- C3 counterexample: a segment whose first attempt is defective but
whose second attempt is clean stops after 2 attempts with no warning —
not after `MAX_RETRIES` additional attempts with the warning set, as
claimed. -/
theorem c3_counterexample :
    c3Oracle 0 = .ok "bad".toList ∧
    c3Detect (normalizeWs "bad".toList) = true ∧
    (runSegment c3Oracle c3Detect).attempts = 2 ∧
    (runSegment c3Oracle c3Detect).warned = false := by
  decide

/-- C3 amended: if every attempt of the budget returns a non-empty
defective text then exactly `MAX_RETRIES + 1 = 3` attempts are made, the
warning flag is set and the last attempt's (normalized) text is kept; and
for every oracle and detector the number of attempts never exceeds
`MAX_RETRIES + 1`. -/
theorem c3_retry_budget (o : Nat → AttemptResult) (p : List Char → Bool)
    (h : ∀ a, a ≤ maxRetries →
      ∃ t, o a = .ok t ∧ normalizeWs t ≠ [] ∧ p (normalizeWs t) = true) :
    (runSegment o p).attempts = maxRetries + 1 ∧
    (runSegment o p).warned = true ∧
    (∀ t, o maxRetries = .ok t → (runSegment o p).text = some (normalizeWs t)) ∧
    (∀ o2 p2, (runSegment o2 p2).attempts ≤ maxRetries + 1) := by
  obtain ⟨t0, e0, ne0, p0⟩ := h 0 (by simp [maxRetries])
  obtain ⟨t1, e1, ne1, p1⟩ := h 1 (by simp [maxRetries])
  obtain ⟨t2, e2, ne2, p2⟩ := h 2 (by simp [maxRetries])
  have hrange : List.range (maxRetries + 1) = [0, 1, 2] := by decide
  have hrun : runSegment o p = ⟨some (normalizeWs t2), true, 3⟩ := by
    unfold runSegment
    rw [hrange]
    simp [segLoop, e0, e1, e2, ne0, p0, ne1, p1, ne2, p2]
  refine ⟨by rw [hrun]; rfl, by rw [hrun], ?_, ?_⟩
  · intro t ht
    have h22 : o 2 = AttemptResult.ok t := ht
    rw [e2] at h22
    cases h22
    rw [hrun]
  · intro o2 p2
    have := segLoop_attempts_le o2 p2 (List.range (maxRetries + 1)) none false 0
    simpa [runSegment, maxRetries] using this

/-- C3 witness: instantiation of the amended theorem at a concrete
always-defective oracle. -/
theorem c3_retry_budget_witness :
    (runSegment c3wOracle c3Detect).attempts = maxRetries + 1 ∧
    (runSegment c3wOracle c3Detect).warned = true ∧
    (∀ t, c3wOracle maxRetries = .ok t →
      (runSegment c3wOracle c3Detect).text = some (normalizeWs t)) ∧
    (∀ o2 p2, (runSegment o2 p2).attempts ≤ maxRetries + 1) :=
  c3_retry_budget c3wOracle c3Detect
    (fun _ _ => ⟨"bad".toList, rfl, by decide, by decide⟩)

/-! ## Claims C2 and C8 -/

lemma pyRange_lt (stop step : Nat) (hstep : 0 < step) :
    ∀ x ∈ pyRange stop step, x < stop := by
  intro x hx
  simp only [pyRange, List.mem_map, List.mem_range] at hx
  obtain ⟨k, hk, rfl⟩ := hx
  have h1 : k + 1 ≤ (stop + step - 1) / step := hk
  have h2 : (k + 1) * step ≤ ((stop + step - 1) / step) * step :=
    Nat.mul_le_mul_right step h1
  have h3 : ((stop + step - 1) / step) * step ≤ stop + step - 1 :=
    Nat.div_mul_le_self _ _
  have h4 : (k + 1) * step = k * step + step := Nat.succ_mul k step
  omega

lemma detectFirst_mem (am : AudioModel) (s e : Nat) :
    ∀ (ths : List Int) (p : Nat × Nat), p ∈ detectFirst am s e ths →
      ∃ th, p ∈ am.detectSilence s e th := by
  intro ths
  induction ths with
  | nil => intro p hp; simp [detectFirst] at hp
  | cons th rest ih =>
    intro p hp
    by_cases hd : am.detectSilence s e th = []
    · rw [detectFirst, if_pos hd] at hp
      exact ih p hp
    · rw [detectFirst, if_neg hd] at hp
      exact ⟨th, hp⟩

lemma detectWithThresholds_spec (am : AudioModel) (hc : SilenceContract am)
    (s e : Nat) :
    ∀ p ∈ detectWithThresholds am s e, p.1 < p.2 ∧ p.2 ≤ e - s := by
  intro p hp
  obtain ⟨th, hth⟩ := detectFirst_mem am s e silenceThresholds p hp
  exact hc s e th p hth

lemma findMinVolumePosition_cases (am : AudioModel) (segStart segLen : Nat) :
    findMinVolumePosition am segStart segLen = 0 ∨
    ∃ i ∈ pyRange (segLen - 100) 100,
      findMinVolumePosition am segStart segLen = i + 50 := by
  suffices h : ∀ (idxs : List Nat) (st : Option Nat × Nat),
      (idxs.foldl
        (fun st i =>
          let v := am.rms (segStart + i)
          match st.1 with
          | none => (some v, i + 50)
          | some mv => if v < mv then (some v, i + 50) else st)
        st).2 = st.2 ∨
      ∃ i ∈ idxs,
        (idxs.foldl
          (fun st i =>
            let v := am.rms (segStart + i)
            match st.1 with
            | none => (some v, i + 50)
            | some mv => if v < mv then (some v, i + 50) else st)
          st).2 = i + 50 by
    have h2 := h (pyRange (segLen - 100) 100) ((none : Option Nat), 0)
    unfold findMinVolumePosition
    rcases h2 with h2 | ⟨i, hi, h2⟩
    · exact Or.inl h2
    · exact Or.inr ⟨i, hi, h2⟩
  intro idxs
  induction idxs with
  | nil => intro st; exact Or.inl rfl
  | cons i idxs ih =>
    intro st
    rw [List.foldl_cons]
    rcases ih ((fun st i =>
        let v := am.rms (segStart + i)
        match st.1 with
        | none => (some v, i + 50)
        | some mv => if v < mv then (some v, i + 50) else st) st i) with h | ⟨j, hj, h⟩
    · rw [h]
      cases hst : st.1 with
      | none => exact Or.inr ⟨i, by simp, by simp [hst]⟩
      | some mv =>
        by_cases hv : am.rms (segStart + i) < mv
        · exact Or.inr ⟨i, by simp, by simp [hst, hv]⟩
        · exact Or.inl (by simp [hst, hv])
    · exact Or.inr ⟨j, by simp [hj], h⟩

lemma selectBestSilence_generic (ranges : List (Nat × Nat)) (tp : Nat) :
    ∀ st : Option Nat × Nat,
      (ranges.foldl
        (fun st r =>
          let mid := (r.1 + r.2) / 2
          let d := Nat.dist mid tp
          match st.1 with
          | none => (some d, mid)
          | some bd => if d < bd then (some d, mid) else st)
        st).2 = st.2 ∨
      ∃ r ∈ ranges,
        (ranges.foldl
          (fun st r =>
            let mid := (r.1 + r.2) / 2
            let d := Nat.dist mid tp
            match st.1 with
            | none => (some d, mid)
            | some bd => if d < bd then (some d, mid) else st)
          st).2 = (r.1 + r.2) / 2 := by
  induction ranges with
  | nil => intro st; exact Or.inl rfl
  | cons r ranges ih =>
    intro st
    rw [List.foldl_cons]
    rcases ih ((fun st r =>
        let mid := (r.1 + r.2) / 2
        let d := Nat.dist mid tp
        match st.1 with
        | none => (some d, mid)
        | some bd => if d < bd then (some d, mid) else st) st r) with h | ⟨q, hq, h⟩
    · rw [h]
      cases hst : st.1 with
      | none => exact Or.inr ⟨r, by simp, by simp [hst]⟩
      | some bd =>
        by_cases hv : Nat.dist ((r.1 + r.2) / 2) tp < bd
        · exact Or.inr ⟨r, by simp, by simp [hst, hv]⟩
        · exact Or.inl (by simp [hst, hv])
    · exact Or.inr ⟨q, by simp [hq], h⟩

lemma selectBestSilence_mem (ranges : List (Nat × Nat)) (tp : Nat)
    (hne : ranges ≠ []) :
    ∃ r ∈ ranges, selectBestSilence ranges tp = (r.1 + r.2) / 2 := by
  cases ranges with
  | nil => exact absurd rfl hne
  | cons r0 rs =>
    rcases selectBestSilence_generic rs tp
        ((some (Nat.dist ((r0.1 + r0.2) / 2) tp), (r0.1 + r0.2) / 2)) with h | ⟨q, hq, h⟩
    · exact ⟨r0, by simp, h⟩
    · exact ⟨q, by simp [hq], h⟩

lemma findOptimal_eq_narrow (am : AudioModel) (t : Nat) (ht : t ≤ am.lengthMs)
    (h : min am.lengthMs (t + marginMs) - (t - marginMs) < minSilenceLen * 2) :
    findOptimalSplitPoint am t = t := by
  unfold findOptimalSplitPoint
  simp only [min_eq_left ht]
  rw [if_pos h]

lemma findOptimal_eq_wide (am : AudioModel) (t : Nat) (ht : t ≤ am.lengthMs)
    (h : ¬ min am.lengthMs (t + marginMs) - (t - marginMs) < minSilenceLen * 2) :
    findOptimalSplitPoint am t =
      match detectWithThresholds am (t - marginMs) (min am.lengthMs (t + marginMs)) with
      | [] => (t - marginMs) + findMinVolumePosition am (t - marginMs)
          (min am.lengthMs (t + marginMs) - (t - marginMs))
      | rs => (t - marginMs) + selectBestSilence rs (t - (t - marginMs)) := by
  unfold findOptimalSplitPoint
  simp only [min_eq_left ht]
  rw [if_neg h]

lemma findOptimal_bounds (am : AudioModel) (hc : SilenceContract am) (t : Nat)
    (ht : t ≤ am.lengthMs) :
    (t - marginMs) ≤ findOptimalSplitPoint am t ∧
    findOptimalSplitPoint am t ≤ min am.lengthMs (t + marginMs) ∧
    (¬ min am.lengthMs (t + marginMs) - (t - marginMs) < minSilenceLen * 2 →
      findOptimalSplitPoint am t < min am.lengthMs (t + marginMs)) ∧
    (min am.lengthMs (t + marginMs) - (t - marginMs) < minSilenceLen * 2 →
      findOptimalSplitPoint am t = t) := by
  by_cases hnar : min am.lengthMs (t + marginMs) - (t - marginMs) < minSilenceLen * 2
  · have hP := findOptimal_eq_narrow am t ht hnar
    rw [hP]
    refine ⟨by omega, ?_, fun hh => absurd hnar hh, fun _ => rfl⟩
    exact le_min ht (by omega)
  · have hwide : 0 < min am.lengthMs (t + marginMs) - (t - marginMs) := by
      have : minSilenceLen = 500 := rfl
      omega
    have hP := findOptimal_eq_wide am t ht hnar
    have hms : minSilenceLen = 500 := rfl
    have hstrict : findOptimalSplitPoint am t < min am.lengthMs (t + marginMs) ∧
        (t - marginMs) ≤ findOptimalSplitPoint am t := by
      rw [hP]
      cases hdet : detectWithThresholds am (t - marginMs)
          (min am.lengthMs (t + marginMs)) with
      | nil =>
        show (t - marginMs) + findMinVolumePosition am (t - marginMs)
            (min am.lengthMs (t + marginMs) - (t - marginMs)) <
              min am.lengthMs (t + marginMs) ∧
          (t - marginMs) ≤ (t - marginMs) + findMinVolumePosition am (t - marginMs)
            (min am.lengthMs (t + marginMs) - (t - marginMs))
        rcases findMinVolumePosition_cases am (t - marginMs)
            (min am.lengthMs (t + marginMs) - (t - marginMs)) with hz | ⟨i, hi, hz⟩
        · rw [hz]
          omega
        · have hib := pyRange_lt _ 100 (by omega) i hi
          rw [hz]
          omega
      | cons r0 rs =>
        show (t - marginMs) + selectBestSilence (r0 :: rs) (t - (t - marginMs)) <
              min am.lengthMs (t + marginMs) ∧
          (t - marginMs) ≤
            (t - marginMs) + selectBestSilence (r0 :: rs) (t - (t - marginMs))
        obtain ⟨r, hr, hsel⟩ := selectBestSilence_mem (r0 :: rs)
          (t - (t - marginMs)) (by simp)
        have hspec := detectWithThresholds_spec am hc (t - marginMs)
          (min am.lengthMs (t + marginMs)) r (by rw [hdet]; exact hr)
        have hmid : (r.1 + r.2) / 2 < r.2 := Nat.div_lt_of_lt_mul (by omega)
        rw [hsel]
        omega
    exact ⟨hstrict.2, le_of_lt hstrict.1,
      fun _ => hstrict.1, fun hh => absurd hh hnar⟩

lemma interior_bounds (am : AudioModel) (hc : SilenceContract am) (S t : Nat)
    (hS : 2 * marginMs < S) (htS : S ≤ t) (htL : t < am.lengthMs) :
    t - marginMs ≤ findOptimalSplitPoint am t ∧
    findOptimalSplitPoint am t ≤ t + marginMs ∧
    0 < findOptimalSplitPoint am t ∧
    findOptimalSplitPoint am t < am.lengthMs := by
  obtain ⟨hlo, hhi, hstrict, hnarrow⟩ := findOptimal_bounds am hc t (le_of_lt htL)
  have hm : marginMs = 10000 := rfl
  have h1 : min am.lengthMs (t + marginMs) ≤ t + marginMs := min_le_right _ _
  have h2 : min am.lengthMs (t + marginMs) ≤ am.lengthMs := min_le_left _ _
  by_cases hnar : min am.lengthMs (t + marginMs) - (t - marginMs) < minSilenceLen * 2
  · have hP := hnarrow hnar
    rw [hP]
    refine ⟨by omega, by omega, by omega, htL⟩
  · have hP := hstrict hnar
    refine ⟨hlo, le_trans hhi h1, by omega, lt_of_lt_of_le hP h2⟩

lemma pyRange_eq (L S : Nat) (hL : 0 < L) (hS : 0 < S) :
    pyRange L S =
      0 :: (List.range ((L + S - 1) / S - 1)).map (fun k => (k + 1) * S) := by
  have hn : 1 ≤ (L + S - 1) / S := (Nat.one_le_div_iff hS).mpr (by omega)
  unfold pyRange
  rw [show (L + S - 1) / S = ((L + S - 1) / S - 1) + 1 by omega,
    List.range_succ_eq_map]
  simp [List.map_map, Function.comp, Nat.succ_mul, Nat.add_mul, Nat.add_comm]

lemma theoreticalSplitPoints_eq (L S : Nat) (hL : 0 < L) (hS : 0 < S) :
    theoreticalSplitPoints L S =
      0 :: ((List.range ((L + S - 1) / S - 1)).map (fun k => (k + 1) * S) ++ [L]) := by
  have hcond : ¬ (pyRange L S).getLast? = some L := by
    intro hlast
    have hmem : L ∈ pyRange L S := List.mem_of_getLast?_eq_some hlast
    exact absurd (pyRange_lt L S hS L hmem) (by omega)
  unfold theoreticalSplitPoints
  rw [if_neg hcond, pyRange_eq L S hL hS, List.cons_append]

lemma determineAllSplitPoints_concat (am : AudioModel) (t0 : Nat) (mid : List Nat)
    (last : Nat) :
    determineAllSplitPoints am (t0 :: (mid ++ [last])) =
      t0 :: (mid.map (findOptimalSplitPoint am) ++ [last]) := by
  show (match (mid ++ [last]).getLast? with
    | none => [t0]
    | some l =>
      t0 :: ((mid ++ [last]).dropLast.map (findOptimalSplitPoint am)) ++ [l]) =
      t0 :: (mid.map (findOptimalSplitPoint am) ++ [last])
  rw [List.getLast?_concat, List.dropLast_concat]
  rfl

lemma map_map_fun (P f : Nat → Nat) :
    ∀ l : List Nat, (l.map f).map P = l.map (fun k => P (f k)) := by
  intro l
  induction l with
  | nil => rfl
  | cons a l ih => simp only [List.map_cons, ih]

lemma splitPlan_eq (am : AudioModel) (S : Nat) (hL : 0 < am.lengthMs) (hS : 0 < S) :
    splitPlan am S =
      0 :: ((List.range ((am.lengthMs + S - 1) / S - 1)).map
        (fun k => findOptimalSplitPoint am ((k + 1) * S)) ++ [am.lengthMs]) := by
  unfold splitPlan
  rw [theoreticalSplitPoints_eq _ _ hL hS, determineAllSplitPoints_concat,
    map_map_fun]

lemma chain'_zero_map_append (g : Nat → Nat) (m L : Nat)
    (h0 : ∀ k < m, 0 < g k) (hmono : ∀ k, k + 1 < m → g k < g (k + 1))
    (hL : ∀ k < m, g k < L) (hpos : 0 < L) :
    List.Chain' (· < ·) (0 :: ((List.range m).map g ++ [L])) := by
  cases m with
  | zero =>
    simp only [List.range_zero, List.map_nil, List.nil_append]
    exact List.chain'_pair.mpr hpos
  | succ mm =>
    apply List.chain'_cons'.mpr
    constructor
    · intro y hy
      rw [List.range_succ_eq_map, List.map_cons, List.cons_append,
        List.head?_cons] at hy
      cases hy
      exact h0 0 (by omega)
    · apply List.Chain'.append
      · apply (List.chain'_map g).mpr
        rw [List.chain'_range_succ]
        intro k hk
        exact hmono k (by omega)
      · simp
      · intro x hx y hy
        rw [List.range_succ, List.map_append, List.map_cons, List.map_nil,
          List.getLast?_concat] at hx
        simp only [List.head?_cons, Option.mem_def, Option.some.injEq] at hx hy
        rw [← hx, ← hy]
        exact hL mm (by omega)

/-- C2 counterexample: with target segment 10 s (margin 10 s, so adjacent
search windows overlap) and audio that is silent exactly on
`[18000, 20000]` ms, both interior boundaries move to 19000 ms: the plan
`[0, 19000, 19000, 30000]` is not strictly increasing even though the
oracle satisfies the silence-detector contract. -/
theorem c2_counterexample :
    SilenceContract c2Audio ∧
    splitPlan c2Audio 10000 = [0, 19000, 19000, 30000] ∧
    ¬ List.Chain' (· < ·) (splitPlan c2Audio 10000) := by
  refine ⟨?_, by decide, ?_⟩
  · intro s e th p hp
    simp only [c2Audio, c2Silence] at hp
    by_cases hg : max s 18000 + minSilenceLen ≤ min e 20000
    · rw [if_pos hg] at hp
      simp only [List.mem_singleton] at hp
      subst hp
      have hms : minSilenceLen = 500 := rfl
      constructor <;> simp <;> omega
    · rw [if_neg hg] at hp
      simp at hp
  · intro h
    rw [show splitPlan c2Audio 10000 = [0, 19000, 19000, 30000] by decide] at h
    simp [List.chain'_cons] at h

/-- C2 amended: for positive duration, a silence oracle satisfying the
detector contract, and a target segment length exceeding twice the search
margin (the default 600 s amply qualifies), the plan is strictly
increasing, starts at 0, ends at the duration, and stays within
`[0, duration]`; when adjacent search windows can overlap
(`target ≤ 2·margin`) boundaries may coincide or invert. -/
theorem c2_splitplan_monotone (am : AudioModel) (S : Nat)
    (hc : SilenceContract am) (hL : 0 < am.lengthMs) (hS : 2 * marginMs < S) :
    List.Chain' (· < ·) (splitPlan am S) ∧
    (splitPlan am S).head? = some 0 ∧
    (splitPlan am S).getLast? = some am.lengthMs ∧
    ∀ x ∈ splitPlan am S, x ≤ am.lengthMs := by
  have hm : marginMs = 10000 := rfl
  have hS0 : 0 < S := by omega
  have hplan := splitPlan_eq am S hL hS0
  have hnS : ((am.lengthMs + S - 1) / S) * S ≤ am.lengthMs + S - 1 :=
    Nat.div_mul_le_self _ _
  have hint : ∀ k < (am.lengthMs + S - 1) / S - 1,
      S ≤ (k + 1) * S ∧ (k + 1) * S < am.lengthMs := by
    intro k hk
    constructor
    · calc S = 1 * S := (Nat.one_mul S).symm
        _ ≤ (k + 1) * S := Nat.mul_le_mul_right S (by omega)
    · have h1 : (k + 1) * S ≤ ((am.lengthMs + S - 1) / S - 1) * S :=
        Nat.mul_le_mul_right S (by omega)
      have h2 : ((am.lengthMs + S - 1) / S - 1) * S =
          ((am.lengthMs + S - 1) / S) * S - S := Nat.sub_one_mul _ _
      omega
  have hb : ∀ k < (am.lengthMs + S - 1) / S - 1,
      (k + 1) * S - marginMs ≤ findOptimalSplitPoint am ((k + 1) * S) ∧
      findOptimalSplitPoint am ((k + 1) * S) ≤ (k + 1) * S + marginMs ∧
      0 < findOptimalSplitPoint am ((k + 1) * S) ∧
      findOptimalSplitPoint am ((k + 1) * S) < am.lengthMs := by
    intro k hk
    exact interior_bounds am hc S ((k + 1) * S) hS (hint k hk).1 (hint k hk).2
  refine ⟨?_, ?_, ?_, ?_⟩
  · rw [hplan]
    apply chain'_zero_map_append
    · intro k hk
      exact (hb k hk).2.2.1
    · intro k hk
      have hbk := hb k (by omega)
      have hbk1 := hb (k + 1) hk
      have hmul : (k + 1 + 1) * S = (k + 1) * S + S := Nat.succ_mul _ _
      omega
    · intro k hk
      exact (hb k hk).2.2.2
    · exact hL
  · rw [hplan]
    rfl
  · rw [hplan, ← List.cons_append, List.getLast?_concat]
  · rw [hplan]
    intro x hx
    simp only [List.mem_cons, List.mem_append,
      List.mem_map, List.mem_range, List.mem_singleton] at hx
    rcases hx with rfl | ⟨k, hk, rfl⟩ | rfl | hfalse
    · omega
    · exact le_of_lt (hb k hk).2.2.2
    · omega
    · simp at hfalse

/-- C2 witness: the amended theorem on a 50 s silence-free audio with a
21 s target segment. -/
theorem c2_splitplan_monotone_witness :
    List.Chain' (· < ·) (splitPlan c2wAudio 21000) ∧
    (splitPlan c2wAudio 21000).head? = some 0 ∧
    (splitPlan c2wAudio 21000).getLast? = some c2wAudio.lengthMs ∧
    ∀ x ∈ splitPlan c2wAudio 21000, x ≤ c2wAudio.lengthMs :=
  c2_splitplan_monotone c2wAudio 21000
    (fun _ _ _ _ hp => absurd hp (List.not_mem_nil _)) (by decide) (by decide)

/-- C8 confirmed: for every silence oracle satisfying the detector
contract and every target inside the audio, the chosen boundary is within
`marginMs` of the target, and whenever the search window is narrower than
twice the minimum silence length the boundary equals the target
verbatim. -/
theorem c8_boundary_within_margin (am : AudioModel) (t : Nat)
    (hc : SilenceContract am) (ht : t ≤ am.lengthMs) :
    Nat.dist (findOptimalSplitPoint am t) t ≤ marginMs ∧
    (min am.lengthMs (t + marginMs) - (t - marginMs) < minSilenceLen * 2 →
      findOptimalSplitPoint am t = t) := by
  obtain ⟨hlo, hhi, _, hnarrow⟩ := findOptimal_bounds am hc t ht
  refine ⟨?_, hnarrow⟩
  have h1 : min am.lengthMs (t + marginMs) ≤ t + marginMs := min_le_right _ _
  simp only [Nat.dist]
  omega

/-- C8 witness: a silence-free audio, target 20 s of 50 s. -/
theorem c8_boundary_within_margin_witness :
    Nat.dist (findOptimalSplitPoint c2wAudio 20000) 20000 ≤ marginMs ∧
    (min c2wAudio.lengthMs (20000 + marginMs) - (20000 - marginMs) <
        minSilenceLen * 2 →
      findOptimalSplitPoint c2wAudio 20000 = 20000) :=
  c8_boundary_within_margin c2wAudio 20000
    (fun _ _ _ _ hp => absurd hp (List.not_mem_nil _)) (by decide)

/-! ## Claim C4 -/

lemma dropLit_append (l cs : List Char) : dropLit l (l ++ cs) = some cs := by
  induction l with
  | nil => rfl
  | cons a l ih => simp [dropLit, ih]

lemma dropWs_cons_not (c : Char) (xs : List Char) (h : isPySpace c = false) :
    dropWs (c :: xs) = c :: xs := by
  unfold dropWs
  simp [h]

lemma dropWs_cons_sp (c : Char) (xs : List Char) (h : isPySpace c = true) :
    dropWs (c :: xs) = dropWs xs := by
  rw [show dropWs (c :: xs) = if isPySpace c = true then dropWs xs else c :: xs from rfl,
    if_pos h]

lemma greedyRun_clean (body : List Char) (hb : ∀ c ∈ body, c ≠ '"' ∧ c ≠ '\\') :
    ∀ rest, greedyRun (body ++ '"' :: rest) = (body, '"' :: rest) := by
  induction body with
  | nil =>
    intro rest
    show greedyRun ('"' :: rest) = ([], '"' :: rest)
    unfold greedyRun
    rw [if_pos rfl]
  | cons c body ih =>
    intro rest
    have hc := hb c (by simp)
    have ih2 := ih (fun d hd => hb d (by simp [hd])) rest
    show greedyRun (c :: (body ++ '"' :: rest)) = (c :: body, '"' :: rest)
    unfold greedyRun
    rw [if_neg hc.1, if_neg hc.2]
    simp [ih2]

lemma tryMatch_uttText (body : List Char) (hb : ∀ c ∈ body, c ≠ '"' ∧ c ≠ '\\') :
    tryMatch (uttText body) = some (body, []) := by
  unfold tryMatch uttText
  rw [dropLit_append]
  simp only [dropWs_cons_not ':' (' ' :: '"' :: (body ++ ['"'])) (by decide),
    dropWs_cons_sp ' ' ('"' :: (body ++ ['"'])) (by decide),
    dropWs_cons_not '"' (body ++ ['"']) (by decide),
    greedyRun_clean body hb []]

lemma findAllAux_succ (f : Nat) (cs : List Char) :
    findAllAux (f + 1) cs =
      match tryMatch cs with
      | some capRest => capRest.1 :: findAllAux f capRest.2
      | none =>
        match cs with
        | [] => []
        | _ :: rest => findAllAux f rest := rfl

lemma findAllAux_nil (f : Nat) : findAllAux f ([] : List Char) = [] := by
  cases f with
  | zero => rfl
  | succ f => rfl

lemma uttText_length (body : List Char) : (uttText body).length = body.length + 15 := by
  have hl : litUtteranceKey.length = 11 := rfl
  simp [uttText, hl]
  omega

lemma extractUtterances_uttText (body : List Char)
    (hb : ∀ c ∈ body, c ≠ '"' ∧ c ≠ '\\') :
    extractUtterances (uttText body) = [body] := by
  unfold extractUtterances
  rw [uttText_length]
  show findAllAux (body.length + 14 + 1) (uttText body) = [body]
  rw [findAllAux_succ, tryMatch_uttText body hb]
  simp [findAllAux_nil]

lemma repJoin_mem (tok : List Char) :
    ∀ n, ∀ c ∈ repJoin n tok, c = ' ' ∨ c ∈ tok := by
  intro n
  induction n with
  | zero => intro c hc; simp [repJoin] at hc
  | succ n ih =>
    intro c hc
    cases n with
    | zero => exact Or.inr hc
    | succ n =>
      simp only [repJoin, List.mem_append, List.mem_cons] at hc
      rcases hc with hc | hc | hc
      · exact Or.inr hc
      · exact Or.inl hc
      · exact ih c hc

lemma splitAux_token_space :
    ∀ (tok : List Char), (∀ c ∈ tok, isPySpace c = false) →
      ∀ (rest acc : List Char), (acc = [] → tok ≠ []) →
        splitAux (tok ++ ' ' :: rest) acc = (acc.reverse ++ tok) :: splitAux rest [] := by
  intro tok
  induction tok with
  | nil =>
    intro _ rest acc hne
    have hacc : acc ≠ [] := fun h => (hne h) rfl
    simp [splitAux, isPySpace, hacc]
  | cons c tok ih =>
    intro h rest acc _
    have hc : isPySpace c = false := h c (by simp)
    have ih2 := ih (fun d hd => h d (by simp [hd])) rest (c :: acc) (by simp)
    simp only [List.cons_append, splitAux, hc, Bool.false_eq_true, if_false,
      List.append_eq]
    rw [ih2]
    simp

lemma splitAux_last_token :
    ∀ (tok : List Char), (∀ c ∈ tok, isPySpace c = false) →
      ∀ (acc : List Char), (acc = [] → tok ≠ []) →
        splitAux tok acc = [acc.reverse ++ tok] := by
  intro tok
  induction tok with
  | nil =>
    intro _ acc hne
    have hacc : acc ≠ [] := fun h => (hne h) rfl
    simp [splitAux, hacc]
  | cons c tok ih =>
    intro h acc _
    have hc : isPySpace c = false := h c (by simp)
    have ih2 := ih (fun d hd => h d (by simp [hd])) (c :: acc) (by simp)
    simp only [splitAux, hc, Bool.false_eq_true, if_false]
    rw [ih2]
    simp

lemma pySplit_repJoin (tok : List Char) (hne : tok ≠ [])
    (ht : ∀ c ∈ tok, isPySpace c = false) :
    ∀ n, pySplit (repJoin n tok) = List.replicate n tok := by
  intro n
  induction n with
  | zero => rfl
  | succ n ih =>
    cases n with
    | zero =>
      show pySplit tok = [tok]
      unfold pySplit
      simpa using splitAux_last_token tok ht [] (fun _ => hne)
    | succ n =>
      show pySplit (tok ++ ' ' :: repJoin (n + 1) tok) = List.replicate (n + 2) tok
      unfold pySplit
      rw [splitAux_token_space tok ht _ [] (fun _ => hne)]
      unfold pySplit at ih
      rw [ih]
      simp [List.replicate_succ]

lemma listCount_replicate (n : Nat) (w : List Char) :
    listCount (List.replicate n w) w = n := by
  induction n with
  | zero => rfl
  | succ n ih =>
    simp [List.replicate_succ, listCount, ih]
    omega

lemma startsWith_append (pat : List Char) :
    ∀ (s t : List Char), startsWith pat s = true → startsWith pat (s ++ t) = true := by
  induction pat with
  | nil => intro s t _; rfl
  | cons p ps ih =>
    intro s t h
    cases s with
    | nil => simp [startsWith] at h
    | cons c cs =>
      simp only [startsWith, Bool.and_eq_true] at h
      simp [startsWith, h.1, ih cs t h.2]

lemma startsWith_of_append (a : List Char) :
    ∀ (b s : List Char), startsWith (a ++ b) s = true → startsWith a s = true := by
  induction a with
  | nil => intro b s _; rfl
  | cons p ps ih =>
    intro b s h
    cases s with
    | nil => simp [startsWith] at h
    | cons c cs =>
      simp only [List.cons_append, startsWith, Bool.and_eq_true] at h
      simp [startsWith, h.1, ih b cs h.2]

lemma containsSub_nil_pat (t : List Char) : containsSub t [] = true := by
  induction t with
  | nil => rfl
  | cons c r ih => simp [containsSub, startsWith, ih]

lemma containsSub_append_left (pat : List Char) :
    ∀ (s t : List Char), containsSub s pat = true → containsSub (s ++ t) pat = true := by
  intro s
  induction s with
  | nil =>
    intro t h
    cases pat with
    | nil => simpa using containsSub_nil_pat t
    | cons p ps => simp [containsSub, startsWith] at h
  | cons c r ih =>
    intro t h
    simp only [containsSub, Bool.or_eq_true] at h
    rcases h with h | h
    · simp only [List.cons_append, containsSub, Bool.or_eq_true]
      exact Or.inl (by simpa using startsWith_append pat (c :: r) t h)
    · simp only [List.cons_append, containsSub, Bool.or_eq_true]
      exact Or.inr (ih t h)

lemma containsSub_append_right (pat : List Char) :
    ∀ (s t : List Char), containsSub t pat = true → containsSub (s ++ t) pat = true := by
  intro s
  induction s with
  | nil => intro t h; exact h
  | cons c r ih =>
    intro t h
    simp only [List.cons_append, containsSub, Bool.or_eq_true]
    exact Or.inr (ih t h)

lemma containsSub_mono_mid (pre mid post pat : List Char)
    (h : containsSub (pre ++ mid ++ post) pat = false) : containsSub mid pat = false := by
  cases hm : containsSub mid pat with
  | false => rfl
  | true =>
    have h1 := containsSub_append_left pat mid post hm
    have h2 := containsSub_append_right pat pre (mid ++ post) h1
    rw [← List.append_assoc] at h2
    rw [h2] at h
    cases h

lemma containsSub_of_super (pat : List Char) :
    ∀ (t b : List Char), containsSub t (pat ++ b) = true → containsSub t pat = true := by
  intro t
  induction t with
  | nil =>
    intro b h
    cases pat with
    | nil => rfl
    | cons p ps => simp [containsSub, startsWith] at h
  | cons c r ih =>
    intro b h
    simp only [containsSub, Bool.or_eq_true] at h ⊢
    rcases h with h | h
    · exact Or.inl (startsWith_of_append pat b (c :: r) h)
    · exact Or.inr (ih b h)

lemma countSub_eq_zero (s pat : List Char) (h : containsSub s pat = false) :
    countSub s pat = 0 := by
  suffices hh : ∀ (f : Nat) (x : List Char),
      containsSub x pat = false → countSubAux pat f x = 0 by
    exact hh s.length s h
  intro f
  induction f with
  | zero => intro x _; rfl
  | succ f ih =>
    intro x hx
    cases x with
    | nil => rfl
    | cons c r =>
      simp only [containsSub, Bool.or_eq_false_iff] at hx
      simp only [countSubAux, hx.1, Bool.false_eq_true, if_false]
      exact ih r hx.2

/-- C4 counterexample: the filler phrase `うん。`, a token of length 3,
repeated only 79 times inside one utterance is already classified
defective (the per-utterance filler-phrase threshold of 70 fires), so the
claimed `defective = false` for 79 repetitions fails. -/
theorem c4_counterexample :
    isProblematicTranscription (uttText (repJoin 79 c4BadTok)) = true := by
  decide

/-- C4 amended: for a plain token (length at least 2, no whitespace, quote
or backslash characters) that avoids the fixed filler phrases — and with
the failure marker absent, as for any such token — 80 repetitions inside
one utterance are classified defective and 79 repetitions are not. -/
theorem c4_repetition_boundary (tok : List Char)
    (hlen : 2 ≤ tok.length)
    (hch : ∀ c ∈ tok, isPySpace c = false ∧ c ≠ '"' ∧ c ≠ '\\')
    (hph : ∀ ph ∈ problemPhrases, containsSub (uttText (repJoin 79 tok)) ph = false)
    (hmk : containsSub (uttText (repJoin 79 tok)) takeMinutesMarker = false) :
    isProblematicTranscription (uttText (repJoin 80 tok)) = true ∧
    isProblematicTranscription (uttText (repJoin 79 tok)) = false := by
  have hne : tok ≠ [] := by
    intro h
    rw [h] at hlen
    simp at hlen
  have hsp : ∀ c ∈ tok, isPySpace c = false := fun c hc => (hch c hc).1
  have hbody : ∀ n, ∀ c ∈ repJoin n tok, c ≠ '"' ∧ c ≠ '\\' := by
    intro n c hc
    rcases repJoin_mem tok n c hc with h | h
    · rw [h]; exact ⟨by decide, by decide⟩
    · exact (hch c h).2
  constructor
  · -- 80 repetitions: the word-count check fires
    have hext := extractUtterances_uttText (repJoin 80 tok) (hbody 80)
    have hwords : pySplit (repJoin 80 tok) = List.replicate 80 tok :=
      pySplit_repJoin tok hne hsp 80
    have hcheck : checkSingleUtteranceRepetition (repJoin 80 tok) = true := by
      unfold checkSingleUtteranceRepetition
      simp only [hwords, Bool.or_eq_true, List.any_eq_true]
      left
      refine ⟨tok, List.mem_replicate.mpr ⟨by omega, rfl⟩, ?_⟩
      rw [listCount_replicate]
      simp only [Bool.and_eq_true, decide_eq_true_eq]
      omega
    unfold isProblematicTranscription
    by_cases hm : containsSub (uttText (repJoin 80 tok)) takeMinutesMarker = true
    · rw [if_pos hm]
    · rw [if_neg hm, if_pos (by rw [hext]; simp [hcheck])]
  · -- 79 repetitions: no check fires
    have hext := extractUtterances_uttText (repJoin 79 tok) (hbody 79)
    have hwords : pySplit (repJoin 79 tok) = List.replicate 79 tok :=
      pySplit_repJoin tok hne hsp 79
    have hsplit : uttText (repJoin 79 tok) =
        (litUtteranceKey ++ [':', ' ', '"']) ++ repJoin 79 tok ++ ['"'] := by
      simp [uttText]
    have hphbody : ∀ ph ∈ problemPhrases, containsSub (repJoin 79 tok) ph = false := by
      intro ph hm
      have := hph ph hm
      rw [hsplit] at this
      exact containsSub_mono_mid _ _ _ _ this
    have hcheck : checkSingleUtteranceRepetition (repJoin 79 tok) = false := by
      unfold checkSingleUtteranceRepetition
      simp only [hwords, Bool.or_eq_false_iff, List.any_eq_false]
      constructor
      · intro w hw
        rw [List.eq_of_mem_replicate hw, listCount_replicate]
        simp
      · intro ph hm
        rw [countSub_eq_zero _ _ (hphbody ph hm)]
        simp
    have hwhole : checkWholeTextRepetition (uttText (repJoin 79 tok)) = false := by
      unfold checkWholeTextRepetition
      rw [List.any_eq_false]
      intro ph hm
      simp only [Bool.and_eq_true, not_and, Bool.or_eq_true, decide_eq_true_eq]
      intro _
      have hc1 : containsSub (uttText (repJoin 79 tok)) (repConcat 70 ph) = false := by
        cases hcc : containsSub (uttText (repJoin 79 tok)) (repConcat 70 ph) with
        | false => rfl
        | true =>
          have : containsSub (uttText (repJoin 79 tok)) ph = true := by
            have hrep : repConcat 70 ph = ph ++ repConcat 69 ph := rfl
            rw [hrep] at hcc
            exact containsSub_of_super ph _ _ hcc
          rw [hph ph hm] at this
          cases this
      have hc2 : countSub (uttText (repJoin 79 tok)) ph = 0 :=
        countSub_eq_zero _ _ (hph ph hm)
      rw [hc1, hc2]
      simp
    unfold isProblematicTranscription
    rw [if_neg (by rw [hmk]; exact fun hh => by cases hh)]
    rw [if_neg (by rw [hext]; simp [hcheck])]
    exact hwhole

/-- C4 witness: the amended theorem at the token `ab`. -/
theorem c4_repetition_boundary_witness :
    isProblematicTranscription (uttText (repJoin 80 c4wTok)) = true ∧
    isProblematicTranscription (uttText (repJoin 79 c4wTok)) = false :=
  c4_repetition_boundary c4wTok (by decide) (by decide) (by decide) (by decide)

/-! ## Claim C5 -/

lemma occListAux_ge (pat : List Char) :
    ∀ (x : List Char) (p : Nat), ∀ i ∈ occListAux pat x p, p ≤ i := by
  intro x
  induction x with
  | nil => intro p i hi; simp [occListAux] at hi
  | cons c r ih =>
    intro p i hi
    simp only [occListAux, List.mem_append] at hi
    rcases hi with hi | hi
    · by_cases hs : startsWith pat (c :: r) = true
      · simp [hs] at hi; omega
      · simp [hs] at hi
    · have := ih (p + 1) i hi
      omega

lemma occListAux_pairwise (pat : List Char) :
    ∀ (x : List Char) (p : Nat), List.Pairwise (· < ·) (occListAux pat x p) := by
  intro x
  induction x with
  | nil => intro p; simp [occListAux]
  | cons c r ih =>
    intro p
    by_cases hs : startsWith pat (c :: r) = true
    · simp only [occListAux, hs, if_true, List.singleton_append]
      refine List.Pairwise.cons ?_ (ih (p + 1))
      intro i hi
      have := occListAux_ge pat r (p + 1) i hi
      omega
    · simp only [occListAux, hs, if_false, List.nil_append]
      exact ih (p + 1)

lemma sorted_filter_tail :
    ∀ (l : List Nat), List.Pairwise (· < ·) l →
      ∀ (s i : Nat) (tl : List Nat),
        l.filter (fun x => decide (s ≤ x)) = i :: tl →
        tl = l.filter (fun x => decide (i + 1 ≤ x)) := by
  intro l
  induction l with
  | nil => intro _ s i tl h; simp at h
  | cons a l ih =>
    intro hp s i tl h
    have hpl : List.Pairwise (· < ·) l := hp.of_cons
    have hal : ∀ y ∈ l, a < y := fun y hy => List.rel_of_pairwise_cons hp hy
    by_cases hs : s ≤ a
    · rw [List.filter_cons_of_pos (by simpa using hs)] at h
      injection h with h1 h2
      rw [← h1, ← h2]
      rw [List.filter_cons_of_neg (by simp)]
      have e1 : l.filter (fun x => decide (s ≤ x)) = l :=
        List.filter_eq_self.mpr fun y hy => by
          simpa using le_of_lt (lt_of_le_of_lt hs (hal y hy))
      have e2 : l.filter (fun x => decide (a + 1 ≤ x)) = l :=
        List.filter_eq_self.mpr fun y hy => by
          simpa using hal y hy
      rw [e1, e2]
    · rw [List.filter_cons_of_neg (by simpa using hs)] at h
      have hmem : i ∈ l := by
        have h2 : i ∈ l.filter (fun x => decide (s ≤ x)) := by rw [h]; simp
        exact List.mem_of_mem_filter h2
      have hai : a < i := hal i hmem
      have hd : decide (i + 1 ≤ a) = false := decide_eq_false (by omega)
      simp only [List.filter_cons, hd, Bool.false_eq_true, if_false]
      exact ih hpl s i tl h

lemma findNthFrom_eq_get (t pat : List Char) :
    ∀ (n s : Nat),
      findNthFrom t pat (n + 1) s =
        ((occList t pat).filter (fun x => decide (s ≤ x))).get? n := by
  intro n
  induction n with
  | zero =>
    intro s
    simp [findNthFrom, findFrom, ← List.get?_zero]
  | succ n ih =>
    intro s
    simp only [findNthFrom]
    cases hf : (occList t pat).filter (fun x => decide (s ≤ x)) with
    | nil => simp [findFrom, hf]
    | cons i tl =>
      have hfind : findFrom t pat s = some i := by simp [findFrom, hf]
      rw [hfind]
      show findNthFrom t pat (n + 1) (i + 1) = (i :: tl).get? (n + 1)
      have htl : tl = (occList t pat).filter (fun x => decide (i + 1 ≤ x)) :=
        sorted_filter_tail _ (occListAux_pairwise pat t 0) s i tl hf
      rw [ih (i + 1), ← htl]
      simp

lemma occListAux_length_indep (pat : List Char) :
    ∀ (x : List Char) (p q : Nat),
      (occListAux pat x p).length = (occListAux pat x q).length := by
  intro x
  induction x with
  | nil => intro p q; rfl
  | cons c r ih =>
    intro p q
    by_cases hs : startsWith pat (c :: r) = true
    · simp [occListAux, hs, ih (p + 1) (q + 1)]
    · simp [occListAux, hs, ih (p + 1) (q + 1)]

lemma occListAux_length_drop (pat : List Char) :
    ∀ (x : List Char) (k : Nat),
      (occListAux pat (x.drop k) 0).length ≤ (occListAux pat x 0).length := by
  intro x
  induction x with
  | nil => intro k; simp
  | cons c r ih =>
    intro k
    cases k with
    | zero => simp
    | succ k =>
      have h1 := ih k
      have h2 : (occListAux pat ((c :: r).drop (k + 1)) 0).length =
          (occListAux pat (r.drop k) 0).length := rfl
      have h3 : (occListAux pat r 0).length ≤ (occListAux pat (c :: r) 0).length := by
        by_cases hs : startsWith pat (c :: r) = true
        · simp [occListAux, hs, occListAux_length_indep pat r 1 0]
        · simp [occListAux, hs, occListAux_length_indep pat r 1 0]
      omega

lemma countSub_le_occList (t pat : List Char) :
    countSub t pat ≤ (occList t pat).length := by
  suffices h : ∀ (f : Nat) (x : List Char),
      countSubAux pat f x ≤ (occListAux pat x 0).length by
    exact h t.length t
  intro f
  induction f with
  | zero => intro x; simp [countSubAux]
  | succ f ih =>
    intro x
    cases x with
    | nil => simp [countSubAux]
    | cons c r =>
      by_cases hs : startsWith pat (c :: r) = true
      · have h1 := ih (List.drop (pat.length - 1) r)
        have h2 := occListAux_length_drop pat r (pat.length - 1)
        have h3 : (occListAux pat (c :: r) 0).length =
            1 + (occListAux pat r 0).length := by
          simp [occListAux, hs, occListAux_length_indep pat r 1 0]
          omega
        simp only [countSubAux, hs, if_true]
        omega
      · have h1 := ih r
        have h3 : (occListAux pat (c :: r) 0).length = (occListAux pat r 0).length := by
          simp [occListAux, hs, occListAux_length_indep pat r 1 0]
        simp only [countSubAux, hs, Bool.false_eq_true, if_false]
        omega

/-- C5 counterexample: on a transcript made of 61 marker occurrences the
source cuts the text before the **60th** occurrence, not before the 61st
as the claim states (and the cut feeds the title prompt; the remap prompt
always receives the full transcript). -/
theorem c5_counterexample :
    countSub c5BigText speakerMarker = 61 ∧
    textForTitle c5BigText ≠ specClaimedTitleText c5BigText := by
  decide

/-- C5 amended: for the title prompt, a transcript with no marker or with
1..60 markers is sent whole; with more than 60 markers exactly the prefix
up to but not including the 60th marker occurrence is sent. -/
theorem c5_title_truncation (t : List Char) :
    (countSub t speakerMarker = 0 → textForTitle t = t) ∧
    (0 < countSub t speakerMarker → countSub t speakerMarker ≤ 60 →
      textForTitle t = t) ∧
    (60 < countSub t speakerMarker →
      ∃ i, (occList t speakerMarker).get? 59 = some i ∧
        textForTitle t = t.take i) := by
  refine ⟨?_, ?_, ?_⟩
  · intro h
    simp [textForTitle, h]
  · intro h1 h2
    unfold textForTitle
    rw [if_neg (by omega), if_neg (by omega)]
  · intro h
    have hlen : 60 < (occList t speakerMarker).length :=
      lt_of_lt_of_le h (countSub_le_occList t speakerMarker)
    have h59 : 59 < (occList t speakerMarker).length := by omega
    refine ⟨(occList t speakerMarker).get ⟨59, h59⟩, List.get?_eq_get h59, ?_⟩
    unfold textForTitle
    rw [if_neg (by omega), if_pos h]
    have hfn : findNthFrom t speakerMarker 60 0 =
        some ((occList t speakerMarker).get ⟨59, h59⟩) := by
      have he := findNthFrom_eq_get t speakerMarker 59 0
      have hfe : (occList t speakerMarker).filter (fun x => decide (0 ≤ x)) =
          occList t speakerMarker :=
        List.filter_eq_self.mpr fun y _ => by simp
      rw [hfe] at he
      rw [show (60 : Nat) = 59 + 1 from rfl, he]
      exact List.get?_eq_get h59
    rw [hfn]

/-- C5 witness: the amended theorem at a markerless text, a 3-marker text
and a 61-marker text. -/
theorem c5_title_truncation_witness :
    textForTitle "hello".toList = "hello".toList ∧
    textForTitle c5SmallText = c5SmallText ∧
    (∃ i, (occList c5BigText speakerMarker).get? 59 = some i ∧
      textForTitle c5BigText = c5BigText.take i) :=
  ⟨(c5_title_truncation "hello".toList).1 (by decide),
   (c5_title_truncation c5SmallText).2.1 (by decide) (by decide),
   (c5_title_truncation c5BigText).2.2 (by decide)⟩

/-! ## Claim C6 -/

/-- C6 confirmed: a failed external call, or a response that does not
parse to a mapping, yields the empty mapping (no exception escapes), and
rewriting with the empty mapping leaves any transcript unchanged. -/
theorem c6_remap_failure_degrades
    (parse : List Char → Option (List (List Char × List Char)))
    (resp t : List Char) (hfail : parse resp = none) :
    getSpeakerMapping parse .failure = [] ∧
    getSpeakerMapping parse (.success resp) = [] ∧
    replaceSpeakers t (getSpeakerMapping parse (.success resp)) = t ∧
    replaceSpeakers t (getSpeakerMapping parse .failure) = t := by
  refine ⟨rfl, ?_, ?_, rfl⟩
  · simp [getSpeakerMapping, hfail]
  · simp [getSpeakerMapping, hfail, replaceSpeakers_nil]

/-- C6 witness: concrete failing parse and concrete transcript. -/
theorem c6_remap_failure_degrades_witness :
    getSpeakerMapping (fun _ => none) .failure = [] ∧
    getSpeakerMapping (fun _ => none) (.success "not json".toList) = [] ∧
    replaceSpeakers "\"speaker\": \"A_seg1\"".toList
      (getSpeakerMapping (fun _ => none) (.success "not json".toList)) =
      "\"speaker\": \"A_seg1\"".toList ∧
    replaceSpeakers "\"speaker\": \"A_seg1\"".toList
      (getSpeakerMapping (fun _ => none) .failure) =
      "\"speaker\": \"A_seg1\"".toList :=
  c6_remap_failure_degrades (fun _ => none) "not json".toList
    "\"speaker\": \"A_seg1\"".toList rfl

/-! ## Claim C7 -/

/-- C7 counterexample: with the single mapping entry `A → B` and a
transcript in which one serialized occurrence of `A` overlaps the end of
another, the first rewrite leaves a serialized `A` occurrence behind, so a
second application changes the text again — the rewrite is not idempotent
for every mapping and text. -/
theorem c7_counterexample :
    replaceSpeakers (replaceSpeakers c7Text c7Map) c7Map ≠
      replaceSpeakers c7Text c7Map := by
  decide

/-- C7 amended: the rewrite is idempotent whenever the first application
leaves no occurrence of any applied source label's serialized pattern in
its output (then the second application performs zero substitutions). -/
theorem c7_rewrite_idempotent (t : List Char) (m : List (List Char × List Char))
    (h : ∀ kv ∈ filterMapping m, hasPat kv.1 (replaceSpeakers t m) = false) :
    replaceSpeakers (replaceSpeakers t m) m = replaceSpeakers t m :=
  foldl_subSpeaker_id (filterMapping m) (replaceSpeakers t m) h

/-- C7 witness: concrete mapping and transcript for which the first
rewrite eliminates the mapped label. -/
theorem c7_rewrite_idempotent_witness :
    (∀ kv ∈ filterMapping c7Map, hasPat kv.1 (replaceSpeakers c7wText c7Map) = false) ∧
    replaceSpeakers (replaceSpeakers c7wText c7Map) c7Map =
      replaceSpeakers c7wText c7Map :=
  ⟨by decide, c7_rewrite_idempotent c7wText c7Map (by decide)⟩

/-! ## Claim C9 -/

/-- C9 counterexample: in the `AudioProcessor`/`ResultIntegrator` path a
failing deletion makes `cleanup_temp_files` re-raise, and the exception
propagates out of `process_audio_file`, so the already-produced output is
not returned — contradicting "the cleanup step does not raise, and the
already-produced transcript result is still returned". -/
theorem c9_counterexample :
    processAudioFileResult "final.txt".toList
        (cleanupTempFiles true [c9BadFile] false) = .error () ∧
    (Except.error () : Except Unit (List Char)) ≠ .ok "final.txt".toList := by
  exact ⟨rfl, fun h => by cases h⟩

/-- C9 amended: a deletion failure in `cleanup_temp_files` propagates and
makes `process_audio_file` fail (after the transcript files were already
written); in the `TranscriptionService` path, by contrast, a cleanup
failure is swallowed and the result is returned unchanged. -/
theorem c9_cleanup_failure_propagates (out : List Char) (files : List TempFile)
    (rmdirFails : Bool) (b : Bool)
    (h : ∃ f ∈ files, isSegArtifact f = true ∧ f.unlinkFails = true) :
    processAudioFileResult out (cleanupTempFiles true files rmdirFails) = .error () ∧
    geminiCleanupStep out b = out := by
  have hd : deleteSegmentFiles files 0 = .error () :=
    (deleteSegmentFiles_error_iff files 0).mpr h
  constructor
  · simp [cleanupTempFiles, hd, processAudioFileResult]
  · cases b <;> rfl

/-- C9 witness: concrete failing deletion. -/
theorem c9_cleanup_failure_propagates_witness :
    processAudioFileResult "out.txt".toList
        (cleanupTempFiles true [c9BadFile] false) = .error () ∧
    geminiCleanupStep "out.txt".toList true = "out.txt".toList :=
  c9_cleanup_failure_propagates "out.txt".toList [c9BadFile] false true
    ⟨c9BadFile, by simp, by decide, by decide⟩

/-! ## Claim C10 -/

/-- C10 confirmed: every successful `transcribe_audio` call returns a
conversations list with exactly one entry whose speaker is the constant
`話者` and whose utterance is the entire formatted text, regardless of the
shape of the model's response. -/
theorem c10_single_conversation (fe eo : Bool) (r : List Char)
    (convs : List Conversation)
    (h : transcribeAudioGT fe eo r = .ok convs) :
    convs.length = 1 ∧
    ∀ c ∈ convs, c.speaker = "話者".toList ∧ c.utterance = r := by
  cases fe <;> cases eo <;>
    simp only [transcribeAudioGT, processMedia, Bool.not_true, Bool.not_false,
      if_true, if_false] at h
  · cases h
  · cases h
  · cases h
  · by_cases hr : r = []
    · rw [if_pos hr] at h; cases h
    · rw [if_neg hr] at h
      cases h
      simp

/-- C10 witness: a response that distinguishes two speakers still becomes
one conversation entry with the constant speaker. -/
theorem c10_single_conversation_witness :
    ([(⟨"話者".toList, c10Resp⟩ : Conversation)] : List Conversation).length = 1 ∧
    ∀ c ∈ ([(⟨"話者".toList, c10Resp⟩ : Conversation)] : List Conversation),
      c.speaker = "話者".toList ∧ c.utterance = c10Resp :=
  c10_single_conversation true true c10Resp [⟨"話者".toList, c10Resp⟩] rfl

end Giji
